import Mathlib

set_option maxRecDepth 100000
set_option maxHeartbeats 2000000

/-!
Shallow embedding of the Minesweeper board engine of `src/src/App.tsx`.

The board is a 10×10 grid of tiles (`BOARD_SIZE = 10`, `NUM_MINES = 15`,
`INITIAL_FLAGS = 10`).  Randomness (`Math.random`) is made explicit: every
function that draws random cells takes a list of `(row, col)` draws, each
entry standing for one iteration of the source's `while` loop.  The source's
`while (minesPlaced < n)` loop is modelled by structural recursion on the
draw list, so a short list corresponds to a prefix of the loop's run.

`revealTile`'s recursion works in the source by mutating the shared tile
objects, so the recursive neighbour calls see the reveals made so far; the
embedding threads the board through the neighbour fold, which produces the
same net result.  The recursion itself is modelled with a fuel parameter;
`revealTileAux_fuel_ge` below proves that fuel `101` (one more than the
number of tiles) always suffices, which is the termination argument.

React state updates inside an event handler are last-write-wins: a handler
that calls `setBoard` several times commits the last value, while every read
of `board` inside the handler sees the state captured when the handler was
created.  `handleTileClick` reproduces this exactly: the first-click branch
computes and commits the mined board (`s1`), but the subsequent reveal reads
the stale `s.board`, and its own `setBoard` overwrites the mined board.
-/

structure Tile where
  isMine : Bool
  isRevealed : Bool
  isFlagged : Bool
  adjacentMines : Nat
deriving DecidableEq, Repr

abbrev Board := List (List Tile)

def BOARD_SIZE : Nat := 10
def NUM_MINES : Nat := 15
def INITIAL_FLAGS : Nat := 10

def emptyTile : Tile := { isMine := false, isRevealed := false, isFlagged := false, adjacentMines := 0 }

/-- The all-blank grid built by the array-literal part of `createEmptyBoard`. -/
def blankBoard : Board := List.replicate BOARD_SIZE (List.replicate BOARD_SIZE emptyTile)

/-- `board[r][c]`, `none` when out of bounds. -/
def getTile (b : Board) (r c : Nat) : Option Tile := b[r]?.bind (fun row => row[c]?)

/-- Update the tile at `(r, c)`; boards are values, so this is the
    copy-then-assign idiom of the source. -/
def setTile (b : Board) (r c : Nat) (f : Tile → Tile) : Board :=
  match b[r]? with
  | none => b
  | some row =>
    match row[c]? with
    | none => b
    | some t => b.set r (row.set c (f t))

/-- The eight `(i, j)` offsets of the source's two nested `-1..1` loops,
    in loop order, with `(0, 0)` skipped. -/
def neighborOffsets : List (Int × Int) :=
  [(-1, -1), (-1, 0), (-1, 1), (0, -1), (0, 1), (1, -1), (1, 0), (1, 1)]

/-- In-bounds Moore neighbours of `(r, c)`, mirroring the source's
    `newRow >= 0 && newRow < BOARD_SIZE && newCol >= 0 && newCol < BOARD_SIZE`. -/
def neighbors (r c : Nat) : List (Nat × Nat) :=
  neighborOffsets.filterMap (fun p =>
    let nr : Int := (r : Int) + p.1
    let nc : Int := (c : Int) + p.2
    if 0 ≤ nr && nr < (BOARD_SIZE : Int) && 0 ≤ nc && nc < (BOARD_SIZE : Int) then
      some (nr.toNat, nc.toNat)
    else none)

def mineAt (b : Board) (r c : Nat) : Bool := ((getTile b r c).map Tile.isMine).getD false

/-- The inner `count` accumulation of `calculateAdjacentMines`. -/
def countAdjacentMines (b : Board) (r c : Nat) : Nat :=
  (neighbors r c).foldl (fun acc p => if mineAt b p.1 p.2 then acc + 1 else acc) 0

/-- One iteration of `calculateAdjacentMines`' cell loop: a non-mine cell
    gets its neighbour count stored, a mine cell is left alone. -/
def updateAdjacentAt (b : Board) (r c : Nat) : Board :=
  match getTile b r c with
  | none => b
  | some t =>
    if t.isMine then b
    else setTile b r c (fun t0 => { t0 with adjacentMines := countAdjacentMines b r c })

def calculateAdjacentMines (b : Board) : Board :=
  (List.range BOARD_SIZE).foldl
    (fun acc r => (List.range BOARD_SIZE).foldl (fun acc2 c => updateAdjacentAt acc2 r c) acc)
    b

/-- The mine-placing `while` loop of `createEmptyBoard`: each draw is one
    loop iteration; a draw landing on an existing mine is rejected. -/
def createMinesLoop : Board → Nat → List (Nat × Nat) → Board
  | b, _, [] => b
  | b, placed, (r, c) :: rest =>
    if placed < NUM_MINES then
      match getTile b r c with
      | none => createMinesLoop b placed rest
      | some t =>
        if t.isMine then createMinesLoop b placed rest
        else createMinesLoop (setTile b r c (fun t0 => { t0 with isMine := true })) (placed + 1) rest
    else b

def createEmptyBoard (draws : List (Nat × Nat)) : Board :=
  calculateAdjacentMines (createMinesLoop blankBoard 0 draws)

/-- The mine-placing `while` loop of `placeMines`: rejects draws landing on
    an existing mine or on the initially clicked cell. -/
def placeMinesLoop (er ec : Nat) (numMines : Nat) : Board → Nat → List (Nat × Nat) → Board
  | b, _, [] => b
  | b, placed, (r, c) :: rest =>
    if placed < numMines then
      match getTile b r c with
      | none => placeMinesLoop er ec numMines b placed rest
      | some t =>
        if !t.isMine && !(r = er && c = ec) then
          placeMinesLoop er ec numMines (setTile b r c (fun t0 => { t0 with isMine := true })) (placed + 1) rest
        else placeMinesLoop er ec numMines b placed rest
    else b

def placeMines (b : Board) (numMines : Nat) (er ec : Nat) (draws : List (Nat × Nat)) : Board :=
  placeMinesLoop er ec numMines b 0 draws

/-- `revealTile` with explicit fuel; the source recursion terminates because
    tiles are marked revealed before the neighbour calls, and the fuel
    theorems below show `101` units always suffice on a 10×10 board. -/
def revealTileAux : Nat → Board → Nat → Nat → Board
  | 0, b, _, _ => b
  | fuel + 1, b, r, c =>
    match getTile b r c with
    | none => b
    | some t =>
      if t.isRevealed || t.isFlagged then b
      else
        let b1 := setTile b r c (fun t0 => { t0 with isRevealed := true })
        if t.adjacentMines = 0 then
          (neighbors r c).foldl (fun acc p => revealTileAux fuel acc p.1 p.2) b1
        else b1

def revealTile (b : Board) (r c : Nat) : Board := revealTileAux (BOARD_SIZE * BOARD_SIZE + 1) b r c

def checkWinCondition (b : Board) : Bool :=
  ((b.flatten.filter (fun t => t.isRevealed && !t.isMine)).length) == BOARD_SIZE * BOARD_SIZE - NUM_MINES

def revealBoard (b : Board) : Board :=
  b.map (fun row => row.map (fun t => { t with isRevealed := true }))

structure GameState where
  board : Board
  isGameOver : Bool
  isGameWon : Bool
  flagsLeft : Nat
deriving DecidableEq, Repr

/-- `handleTileClick`.  `s1` is the state after the first-click branch's
    `setBoard`; every later read of `board` in the source reads the stale
    closure value `s.board`, and every later `setBoard` overwrites `s1.board`. -/
def handleTileClick (s : GameState) (r c : Nat) (draws : List (Nat × Nat)) : GameState :=
  if s.isGameOver || s.isGameWon then s
  else
    let s1 :=
      if s.board.flatten.all (fun t => !t.isMine && !t.isRevealed) then
        { s with board := calculateAdjacentMines (placeMines s.board NUM_MINES r c draws) }
      else s
    let newBoard := revealTile s.board r c
    if ((getTile newBoard r c).map Tile.isMine).getD false then
      { s1 with isGameOver := true, board := revealBoard s.board }
    else
      let s2 := { s1 with board := newBoard }
      if checkWinCondition newBoard then
        { s2 with isGameWon := true, board := revealBoard s.board }
      else s2

/-- `handleTileRightClick` (minus the `event.preventDefault` UI call). -/
def handleTileRightClick (s : GameState) (r c : Nat) : GameState :=
  if s.isGameOver || s.isGameWon then s
  else
    match getTile s.board r c with
    | none => s
    | some t =>
      if !t.isRevealed then
        if t.isFlagged then
          { s with board := setTile s.board r c (fun t0 => { t0 with isFlagged := false }),
                   flagsLeft := s.flagsLeft + 1 }
        else if s.flagsLeft > 0 then
          { s with board := setTile s.board r c (fun t0 => { t0 with isFlagged := true }),
                   flagsLeft := s.flagsLeft - 1 }
        else s
      else s

def handleReset (draws : List (Nat × Nat)) : GameState :=
  { board := createEmptyBoard draws, isGameOver := false, isGameWon := false, flagsLeft := INITIAL_FLAGS }

/-- Counting helpers used by the specification-level statements. -/
def mineCount (b : Board) : Nat := (b.flatten.filter (fun t => t.isMine)).length

def revealedCount (b : Board) : Nat := (b.flatten.filter (fun t => t.isRevealed)).length

def rowUnrevealed (row : List Tile) : Nat := row.countP (fun t => !t.isRevealed)

def unrevealedCount (b : Board) : Nat := (b.map rowUnrevealed).sum

/-- Well-formed board: the fixed 10×10 shape. -/
def Wf (b : Board) : Prop := b.length = BOARD_SIZE ∧ ∀ row ∈ b, row.length = BOARD_SIZE

instance : DecidablePred Wf := fun b => by
  unfold Wf; infer_instance

/-- The spec's tile invariant: no tile is simultaneously revealed and flagged. -/
def noRevealedFlagged (b : Board) : Bool :=
  b.all (fun row => row.all (fun t => !(t.isRevealed && t.isFlagged)))

/-! ### Basic facts about `getTile` and `setTile` -/

theorem getTile_some_elim {b : Board} {r c : Nat} {t : Tile} (h : getTile b r c = some t) :
    ∃ row, b[r]? = some row ∧ row[c]? = some t := by
  unfold getTile at h
  cases hr : b[r]? with
  | none => rw [hr] at h; simp at h
  | some row => rw [hr] at h; simp only [Option.some_bind] at h; exact ⟨row, rfl, h⟩

theorem setTile_of_getTile_none {b : Board} {r c : Nat} (f : Tile → Tile)
    (h : getTile b r c = none) : setTile b r c f = b := by
  unfold getTile at h
  unfold setTile
  split
  · rfl
  next row hr =>
    split
    · rfl
    next t hc =>
      rw [hr] at h
      simp only [Option.some_bind] at h
      rw [h] at hc
      cases hc

theorem getTile_setTile (b : Board) (r c : Nat) (f : Tile → Tile) (i j : Nat) :
    getTile (setTile b r c f) i j =
      if r = i ∧ c = j then (getTile b i j).map f else getTile b i j := by
  by_cases hin : ∃ t', getTile b r c = some t'
  · obtain ⟨t, ht⟩ := hin
    obtain ⟨row, hr, hc⟩ := getTile_some_elim ht
    have hrlt : r < b.length := (List.getElem?_eq_some.mp hr).1
    have hclt : c < row.length := (List.getElem?_eq_some.mp hc).1
    have hset : setTile b r c f = b.set r (row.set c (f t)) := by
      simp only [setTile, hr, hc]
    rw [hset]
    unfold getTile
    rw [List.getElem?_set]
    by_cases hri : r = i
    · subst hri
      simp only [if_pos rfl, if_pos hrlt, hr, Option.some_bind, true_and, if_true]
      by_cases hcj : c = j
      · subst hcj
        simp [List.getElem?_set, if_pos hclt, hc]
      · simp [List.getElem?_set, hcj]
    · simp [hri]
  · push_neg at hin
    have hnone : getTile b r c = none := by
      cases hg : getTile b r c with
      | none => rfl
      | some t => exact absurd hg (hin t)
    rw [setTile_of_getTile_none f hnone]
    by_cases hij : r = i ∧ c = j
    · obtain ⟨hi, hj⟩ := hij; subst hi; subst hj
      rw [hnone]; simp
    · simp [hij]

theorem getTile_setTile_same {b : Board} {r c : Nat} {t : Tile} (f : Tile → Tile)
    (h : getTile b r c = some t) : getTile (setTile b r c f) r c = some (f t) := by
  rw [getTile_setTile]; simp [h]

theorem getTile_setTile_ne {b : Board} (r c : Nat) (f : Tile → Tile) {i j : Nat}
    (h : ¬(r = i ∧ c = j)) : getTile (setTile b r c f) i j = getTile b i j := by
  rw [getTile_setTile]; simp [h]

theorem getTile_revealBoard (b : Board) (i j : Nat) :
    getTile (revealBoard b) i j = (getTile b i j).map (fun t => { t with isRevealed := true }) := by
  unfold revealBoard getTile
  rw [List.getElem?_map]
  cases b[i]? with
  | none => simp
  | some row => simp [List.getElem?_map]

theorem getTile_mem {b : Board} {r c : Nat} {t : Tile} (h : getTile b r c = some t) :
    t ∈ b.flatten := by
  obtain ⟨row, hr, hc⟩ := getTile_some_elim h
  exact List.mem_flatten.mpr ⟨row, List.getElem?_mem hr, List.getElem?_mem hc⟩

theorem getTile_blankBoard {i j : Nat} {t : Tile} (h : getTile blankBoard i j = some t) :
    t = emptyTile := by
  obtain ⟨row, hr, hc⟩ := getTile_some_elim h
  have hrow : row = List.replicate BOARD_SIZE emptyTile :=
    List.eq_of_mem_replicate (List.getElem?_mem hr)
  subst hrow
  exact List.eq_of_mem_replicate (List.getElem?_mem hc)

/-! ### Counting unrevealed tiles; termination of the flood fill

The source recursion terminates because a tile is marked revealed before its
neighbours are visited, so every recursive layer strictly decreases the
number of unrevealed tiles.  `revealTileAux_congr` makes this precise: any
fuel strictly above the unrevealed count yields the same result. -/

theorem countP_set_tile (p : Tile → Bool) :
    ∀ (l : List Tile) (i : Nat) (t t' : Tile), l[i]? = some t →
      (l.set i t').countP p + (if p t then 1 else 0) = l.countP p + (if p t' then 1 else 0) := by
  intro l
  induction l with
  | nil => intro i t t' h; simp at h
  | cons hd tl ih =>
    intro i t t' h
    cases i with
    | zero =>
      simp only [List.getElem?_cons_zero, Option.some_inj] at h
      subst h
      simp only [List.set_cons_zero, List.countP_cons]
      omega
    | succ n =>
      simp only [List.getElem?_cons_succ] at h
      simp only [List.set_cons_succ, List.countP_cons]
      have := ih n t t' h
      omega

theorem sum_set_nat : ∀ (l : List Nat) (i : Nat) (x y : Nat), l[i]? = some x →
    (l.set i y).sum + x = l.sum + y := by
  intro l
  induction l with
  | nil => intro i x y h; simp at h
  | cons hd tl ih =>
    intro i x y h
    cases i with
    | zero =>
      simp only [List.getElem?_cons_zero, Option.some_inj] at h
      subst h
      simp only [List.set_cons_zero, List.sum_cons]
      omega
    | succ n =>
      simp only [List.getElem?_cons_succ] at h
      simp only [List.set_cons_succ, List.sum_cons]
      have := ih n x y h
      omega

theorem unrevealedCount_setTile (b : Board) (r c : Nat) (f : Tile → Tile) {t : Tile}
    (h : getTile b r c = some t) :
    unrevealedCount (setTile b r c f) + (if !t.isRevealed then 1 else 0)
      = unrevealedCount b + (if !(f t).isRevealed then 1 else 0) := by
  obtain ⟨row, hr, hc⟩ := getTile_some_elim h
  have hset : setTile b r c f = b.set r (row.set c (f t)) := by
    simp only [setTile, hr, hc]
  rw [hset]
  unfold unrevealedCount
  rw [List.map_set]
  have hmr : (b.map rowUnrevealed)[r]? = some (rowUnrevealed row) := by
    rw [List.getElem?_map, hr]; rfl
  have hsum := sum_set_nat (b.map rowUnrevealed) r (rowUnrevealed row)
    (rowUnrevealed (row.set c (f t))) hmr
  have hcount := countP_set_tile (fun t0 => !t0.isRevealed) row c t (f t) hc
  beta_reduce at hcount
  unfold rowUnrevealed at *
  omega

theorem unrevealedCount_reveal {b : Board} {r c : Nat} {t : Tile}
    (h : getTile b r c = some t) (hrev : t.isRevealed = false) :
    unrevealedCount (setTile b r c (fun t0 => { t0 with isRevealed := true })) + 1
      = unrevealedCount b := by
  have := unrevealedCount_setTile b r c (fun t0 => { t0 with isRevealed := true }) h
  simp only [hrev] at this
  simp at this
  omega

theorem unrevealedCount_reveal_le (b : Board) (r c : Nat) :
    unrevealedCount (setTile b r c (fun t0 => { t0 with isRevealed := true })) ≤ unrevealedCount b := by
  cases hg : getTile b r c with
  | none => rw [setTile_of_getTile_none _ hg]
  | some t =>
    have := unrevealedCount_setTile b r c (fun t0 => { t0 with isRevealed := true }) hg
    simp at this
    cases hR : t.isRevealed <;> simp [hR] at this <;> omega

theorem one_le_unrevealedCount {b : Board} {r c : Nat} {t : Tile}
    (h : getTile b r c = some t) (hrev : t.isRevealed = false) : 1 ≤ unrevealedCount b := by
  have := unrevealedCount_reveal h hrev
  omega

theorem unrevealedCount_revealTileAux_le :
    ∀ (f : Nat) (b : Board) (r c : Nat),
      unrevealedCount (revealTileAux f b r c) ≤ unrevealedCount b := by
  intro f
  induction f with
  | zero => intro b r c; exact le_refl _
  | succ f ih =>
    intro b r c
    have hfold : ∀ (ps : List (Nat × Nat)) (acc : Board),
        unrevealedCount (ps.foldl (fun a p => revealTileAux f a p.1 p.2) acc)
          ≤ unrevealedCount acc := by
      intro ps
      induction ps with
      | nil => intro acc; exact le_refl _
      | cons p ps ihps =>
        intro acc
        simp only [List.foldl_cons]
        exact le_trans (ihps _) (ih acc p.1 p.2)
    cases hg : getTile b r c with
    | none => simp [revealTileAux, hg]
    | some t =>
      by_cases hrf : (t.isRevealed || t.isFlagged) = true
      · simp [revealTileAux, hg, hrf]
      · by_cases hadj : t.adjacentMines = 0
        · simp only [revealTileAux, hg, hrf, hadj, if_true, if_false, Bool.false_eq_true]
          exact le_trans (hfold _ _) (unrevealedCount_reveal_le b r c)
        · simp only [revealTileAux, hg, hrf, hadj, if_false, Bool.false_eq_true]
          exact unrevealedCount_reveal_le b r c

theorem revealTileAux_congr :
    ∀ (n fa fb : Nat) (b : Board) (r c : Nat),
      unrevealedCount b ≤ n → n < fa → n < fb →
      revealTileAux fa b r c = revealTileAux fb b r c := by
  intro n
  induction n with
  | zero =>
    intro fa fb b r c hcnt hfa hfb
    obtain ⟨fa', rfl⟩ : ∃ k, fa = k + 1 := ⟨fa - 1, by omega⟩
    obtain ⟨fb', rfl⟩ : ∃ k, fb = k + 1 := ⟨fb - 1, by omega⟩
    cases hg : getTile b r c with
    | none => simp [revealTileAux, hg]
    | some t =>
      by_cases hrf : (t.isRevealed || t.isFlagged) = true
      · simp [revealTileAux, hg, hrf]
      · have hrev : t.isRevealed = false := by
          cases hR : t.isRevealed
          · rfl
          · rw [hR] at hrf; simp at hrf
        exact absurd (one_le_unrevealedCount hg hrev) (by omega)
  | succ n ih =>
    intro fa fb b r c hcnt hfa hfb
    obtain ⟨fa', rfl⟩ : ∃ k, fa = k + 1 := ⟨fa - 1, by omega⟩
    obtain ⟨fb', rfl⟩ : ∃ k, fb = k + 1 := ⟨fb - 1, by omega⟩
    cases hg : getTile b r c with
    | none => simp [revealTileAux, hg]
    | some t =>
      by_cases hrf : (t.isRevealed || t.isFlagged) = true
      · simp [revealTileAux, hg, hrf]
      · have hrev : t.isRevealed = false := by
          cases hR : t.isRevealed
          · rfl
          · rw [hR] at hrf; simp at hrf
        have h1 : unrevealedCount (setTile b r c (fun t0 => { t0 with isRevealed := true })) ≤ n := by
          have := unrevealedCount_reveal hg hrev
          omega
        by_cases hadj : t.adjacentMines = 0
        · simp only [revealTileAux, hg, hrf, hadj, if_true, if_false, Bool.false_eq_true]
          have hfold : ∀ (ps : List (Nat × Nat)) (acc : Board), unrevealedCount acc ≤ n →
              ps.foldl (fun a p => revealTileAux fa' a p.1 p.2) acc
                = ps.foldl (fun a p => revealTileAux fb' a p.1 p.2) acc := by
            intro ps
            induction ps with
            | nil => intro acc _; rfl
            | cons p ps ihps =>
              intro acc hacc
              simp only [List.foldl_cons]
              rw [ih fa' fb' acc p.1 p.2 hacc (by omega) (by omega)]
              exact ihps _ (le_trans (unrevealedCount_revealTileAux_le fb' acc p.1 p.2) hacc)
          exact hfold _ _ h1
        · simp [revealTileAux, hg, hrf, hadj]

theorem countP_le_len (p : Tile → Bool) (l : List Tile) : l.countP p ≤ l.length :=
  List.countP_le_length p

theorem unrevealedCount_le_of_wf {b : Board} (h : Wf b) :
    unrevealedCount b ≤ BOARD_SIZE * BOARD_SIZE := by
  obtain ⟨hlen, hrows⟩ := h
  have key : ∀ (l : List (List Tile)), (∀ row ∈ l, row.length = BOARD_SIZE) →
      (l.map rowUnrevealed).sum ≤ l.length * BOARD_SIZE := by
    intro l
    induction l with
    | nil => intro _; simp
    | cons hd tl ihl =>
      intro hb
      simp only [List.map_cons, List.sum_cons, List.length_cons]
      have h1 : rowUnrevealed hd ≤ BOARD_SIZE := by
        have := countP_le_len (fun t => !t.isRevealed) hd
        unfold rowUnrevealed
        rw [← hb hd (by simp)]
        exact this
      have h2 := ihl (fun row hrow => hb row (by simp [hrow]))
      calc rowUnrevealed hd + (tl.map rowUnrevealed).sum
          ≤ BOARD_SIZE + tl.length * BOARD_SIZE := Nat.add_le_add h1 h2
        _ = (tl.length + 1) * BOARD_SIZE := by ring
  have := key b hrows
  rw [hlen] at this
  exact this

/-- Any fuel above the tile count computes the real `revealTile`: the
    source's recursion never needs more than one call layer per tile, hence
    it terminates on every board. -/
theorem revealTileAux_fuel_ge {b : Board} (hW : Wf b) {f : Nat}
    (hf : BOARD_SIZE * BOARD_SIZE < f) (r c : Nat) :
    revealTileAux f b r c = revealTile b r c := by
  unfold revealTile
  exact revealTileAux_congr (BOARD_SIZE * BOARD_SIZE) f (BOARD_SIZE * BOARD_SIZE + 1)
    b r c (unrevealedCount_le_of_wf hW) hf (by omega)

/-! ### What a reveal can change: the `BoardStep` preorder

`BoardStep b b'` says `b'` arises from `b` by turning `isRevealed` on for
some unflagged tiles: mine, flag and adjacency fields are untouched,
reveals are monotone, and a flagged tile's `isRevealed` never changes. -/

def TileStep (t t' : Tile) : Prop :=
  t'.isMine = t.isMine ∧ t'.isFlagged = t.isFlagged ∧ t'.adjacentMines = t.adjacentMines ∧
    (t.isRevealed = true → t'.isRevealed = true) ∧
    (t.isFlagged = true → t'.isRevealed = t.isRevealed)

def BoardStep (b b' : Board) : Prop :=
  ∀ i j, (getTile b i j = none ∧ getTile b' i j = none) ∨
    (∃ t t', getTile b i j = some t ∧ getTile b' i j = some t' ∧ TileStep t t')

theorem tileStep_refl (t : Tile) : TileStep t t :=
  ⟨rfl, rfl, rfl, fun h => h, fun _ => rfl⟩

theorem tileStep_trans {t t' t'' : Tile} (h1 : TileStep t t') (h2 : TileStep t' t'') :
    TileStep t t'' := by
  obtain ⟨m1, f1, a1, r1, fr1⟩ := h1
  obtain ⟨m2, f2, a2, r2, fr2⟩ := h2
  refine ⟨m2.trans m1, f2.trans f1, a2.trans a1, fun h => r2 (r1 h), fun hf => ?_⟩
  have hf' : t'.isFlagged = true := f1.symm ▸ hf
  rw [fr2 hf', fr1 hf]

theorem boardStep_refl (b : Board) : BoardStep b b := by
  intro i j
  cases hg : getTile b i j with
  | none => exact Or.inl ⟨rfl, rfl⟩
  | some t => exact Or.inr ⟨t, t, rfl, rfl, tileStep_refl t⟩

theorem boardStep_trans {b b' b'' : Board} (h1 : BoardStep b b') (h2 : BoardStep b' b'') :
    BoardStep b b'' := by
  intro i j
  rcases h1 i j with ⟨hn, hn'⟩ | ⟨t, t', hg, hg', hs⟩
  · rcases h2 i j with ⟨_, hn''⟩ | ⟨u, u', hgu, _, _⟩
    · exact Or.inl ⟨hn, hn''⟩
    · rw [hn'] at hgu; cases hgu
  · rcases h2 i j with ⟨hnu, _⟩ | ⟨u, u', hgu, hgu', hsu⟩
    · rw [hg'] at hnu; cases hnu
    · rw [hg'] at hgu
      cases hgu
      exact Or.inr ⟨t, u', hg, hgu', tileStep_trans hs hsu⟩

theorem BoardStep.getTile_some {b b' : Board} (h : BoardStep b b') {i j : Nat} {t : Tile}
    (hg : getTile b i j = some t) :
    ∃ t', getTile b' i j = some t' ∧ TileStep t t' := by
  rcases h i j with ⟨hn, _⟩ | ⟨u, u', hgu, hgu', hsu⟩
  · rw [hg] at hn; cases hn
  · rw [hg] at hgu; cases hgu; exact ⟨u', hgu', hsu⟩

theorem boardStep_setRevealed {b : Board} {r c : Nat} {t : Tile}
    (hg : getTile b r c = some t) (hfl : t.isFlagged = false) :
    BoardStep b (setTile b r c (fun t0 => { t0 with isRevealed := true })) := by
  intro i j
  rw [getTile_setTile]
  by_cases hij : r = i ∧ c = j
  · obtain ⟨hi, hj⟩ := hij
    subst hi; subst hj
    rw [if_pos ⟨rfl, rfl⟩, hg]
    exact Or.inr ⟨t, _, rfl, rfl, ⟨rfl, rfl, rfl, fun _ => rfl, fun hf => absurd (hfl ▸ hf) (by simp)⟩⟩
  · rw [if_neg hij]
    exact boardStep_refl b i j

theorem boardStep_revealTileAux : ∀ (f : Nat) (b : Board) (r c : Nat),
    BoardStep b (revealTileAux f b r c) := by
  intro f
  induction f with
  | zero => intro b r c; exact boardStep_refl b
  | succ f ih =>
    intro b r c
    have hfold : ∀ (ps : List (Nat × Nat)) (acc : Board),
        BoardStep acc (ps.foldl (fun a p => revealTileAux f a p.1 p.2) acc) := by
      intro ps
      induction ps with
      | nil => intro acc; exact boardStep_refl acc
      | cons p ps ihps =>
        intro acc
        simp only [List.foldl_cons]
        exact boardStep_trans (ih acc p.1 p.2) (ihps _)
    cases hg : getTile b r c with
    | none => simp only [revealTileAux, hg]; exact boardStep_refl b
    | some t =>
      by_cases hrf : (t.isRevealed || t.isFlagged) = true
      · simp only [revealTileAux, hg, hrf, if_true]; exact boardStep_refl b
      · have hfl : t.isFlagged = false := by
          cases hF : t.isFlagged
          · rfl
          · rw [hF] at hrf; simp at hrf
        by_cases hadj : t.adjacentMines = 0
        · simp only [revealTileAux, hg, hrf, hadj, if_true, if_false, Bool.false_eq_true]
          exact boardStep_trans (boardStep_setRevealed hg hfl) (hfold _ _)
        · simp only [revealTileAux, hg, hrf, hadj, if_false, Bool.false_eq_true]
          exact boardStep_setRevealed hg hfl

theorem boardStep_revealTile (b : Board) (r c : Nat) : BoardStep b (revealTile b r c) :=
  boardStep_revealTileAux _ b r c

/-! ### Positive facts about the flood fill -/

theorem revealTileAux_noop {f : Nat} {b : Board} {r c : Nat} {t : Tile}
    (hg : getTile b r c = some t) (hrf : (t.isRevealed || t.isFlagged) = true) :
    revealTileAux f b r c = b := by
  cases f with
  | zero => rfl
  | succ f => simp only [revealTileAux, hg, hrf, if_true]

/-- The no-op guard of `revealTile`: a revealed or flagged target leaves the
    board untouched. -/
theorem revealTile_noop {b : Board} {r c : Nat} {t : Tile}
    (hg : getTile b r c = some t) (hrf : (t.isRevealed || t.isFlagged) = true) :
    revealTile b r c = b :=
  revealTileAux_noop hg hrf

/-- Calling the reveal on an unflagged cell leaves that cell revealed. -/
theorem revealTileAux_self_revealed {f : Nat} (hf : 1 ≤ f) {b : Board} {i j : Nat} {t : Tile}
    (hg : getTile b i j = some t) (hfl : t.isFlagged = false) :
    ∃ t', getTile (revealTileAux f b i j) i j = some t' ∧ t'.isRevealed = true := by
  obtain ⟨f', rfl⟩ : ∃ k, f = k + 1 := ⟨f - 1, by omega⟩
  cases hR : t.isRevealed with
  | true =>
    rw [revealTileAux_noop hg (by rw [hR]; rfl)]
    exact ⟨t, hg, hR⟩
  | false =>
    have hrf : (t.isRevealed || t.isFlagged) = false := by rw [hR, hfl]; rfl
    have hb1 : getTile (setTile b i j (fun t0 => { t0 with isRevealed := true })) i j
        = some { t with isRevealed := true } := getTile_setTile_same _ hg
    by_cases hadj : t.adjacentMines = 0
    · simp only [revealTileAux, hg, hrf, hadj, if_true, if_false, Bool.false_eq_true]
      have hstep : BoardStep (setTile b i j (fun t0 => { t0 with isRevealed := true }))
          ((neighbors i j).foldl (fun a p => revealTileAux f' a p.1 p.2)
            (setTile b i j (fun t0 => { t0 with isRevealed := true }))) := by
        generalize (neighbors i j) = ps
        generalize (setTile b i j (fun t0 => { t0 with isRevealed := true })) = acc
        induction ps generalizing acc with
        | nil => exact boardStep_refl acc
        | cons p ps ihps =>
          simp only [List.foldl_cons]
          exact boardStep_trans (boardStep_revealTileAux f' acc p.1 p.2) (ihps _)
      obtain ⟨t', hg', hs⟩ := hstep.getTile_some hb1
      exact ⟨t', hg', hs.2.2.2.1 rfl⟩
    · simp only [revealTileAux, hg, hrf, hadj, if_false, Bool.false_eq_true]
      exact ⟨{ t with isRevealed := true }, hb1, rfl⟩

theorem boardStep_foldl (f : Nat) (ps : List (Nat × Nat)) (acc : Board) :
    BoardStep acc (ps.foldl (fun a p => revealTileAux f a p.1 p.2) acc) := by
  induction ps generalizing acc with
  | nil => exact boardStep_refl acc
  | cons p ps ihps =>
    simp only [List.foldl_cons]
    exact boardStep_trans (boardStep_revealTileAux f acc p.1 p.2) (ihps _)

/-- Every unflagged cell in the worklist of a neighbour fold ends revealed. -/
theorem foldl_reveals_mem {f : Nat} (hf : 1 ≤ f) :
    ∀ (ps : List (Nat × Nat)) (acc : Board) (q : Nat × Nat), q ∈ ps →
      ∀ t, getTile acc q.1 q.2 = some t → t.isFlagged = false →
      ∃ t', getTile (ps.foldl (fun a p => revealTileAux f a p.1 p.2) acc) q.1 q.2 = some t' ∧
        t'.isRevealed = true := by
  intro ps
  induction ps with
  | nil => intro acc q hq; cases hq
  | cons p ps ihps =>
    intro acc q hq t hg hfl
    simp only [List.foldl_cons]
    rcases List.mem_cons.mp hq with hqp | hqtail
    · subst hqp
      obtain ⟨t', hg', hrev'⟩ := revealTileAux_self_revealed hf hg hfl
      obtain ⟨t'', hg'', hs⟩ := (boardStep_foldl f ps _).getTile_some hg'
      exact ⟨t'', hg'', hs.2.2.2.1 hrev'⟩
    · obtain ⟨t1, hg1, hs1⟩ := (boardStep_revealTileAux f acc p.1 p.2).getTile_some hg
      exact ihps _ q hqtail t1 hg1 (by rw [hs1.2.1, hfl])

/-! ### Facts about `calculateAdjacentMines` -/

def allCells : List (Nat × Nat) :=
  (List.range BOARD_SIZE).flatMap (fun r => (List.range BOARD_SIZE).map (fun c => (r, c)))

theorem foldl_pairs (g : Board → Nat → Nat → Board) :
    ∀ (rs : List Nat) (cs : List Nat) (b : Board),
    rs.foldl (fun acc r => cs.foldl (fun acc2 c => g acc2 r c) acc) b
      = (rs.flatMap (fun r => cs.map (fun c => (r, c)))).foldl (fun acc p => g acc p.1 p.2) b := by
  intro rs
  induction rs with
  | nil => intro cs b; rfl
  | cons r rs ihrs =>
    intro cs b
    simp only [List.foldl_cons, List.flatMap_cons, List.foldl_append, List.foldl_map]
    rw [ihrs]

theorem calculateAdjacentMines_eq_fold (b : Board) :
    calculateAdjacentMines b = allCells.foldl (fun acc p => updateAdjacentAt acc p.1 p.2) b := by
  unfold calculateAdjacentMines allCells
  exact foldl_pairs (fun a r c => updateAdjacentAt a r c) _ _ b

def SameMines (b b' : Board) : Prop :=
  ∀ i j, (getTile b i j).map Tile.isMine = (getTile b' i j).map Tile.isMine

theorem sameMines_trans {b b' b'' : Board} (h1 : SameMines b b') (h2 : SameMines b' b'') :
    SameMines b b'' := fun i j => (h1 i j).trans (h2 i j)

theorem mineAt_congr {b b' : Board} (h : SameMines b b') (r c : Nat) :
    mineAt b r c = mineAt b' r c := by
  unfold mineAt; rw [h]

theorem countAdjacentMines_congr {b b' : Board} (h : SameMines b b') (r c : Nat) :
    countAdjacentMines b r c = countAdjacentMines b' r c := by
  unfold countAdjacentMines
  simp only [mineAt_congr h]

theorem updateAdjacentAt_ne {b : Board} {r c i j : Nat} (h : ¬(r = i ∧ c = j)) :
    getTile (updateAdjacentAt b r c) i j = getTile b i j := by
  unfold updateAdjacentAt
  cases hg : getTile b r c with
  | none => rfl
  | some t =>
    by_cases hm : t.isMine = true
    · simp only [hm, if_true]
    · simp only [hm, if_false, Bool.false_eq_true]
      exact getTile_setTile_ne r c _ h

theorem updateAdjacentAt_self_mine {b : Board} {r c : Nat} {t : Tile}
    (hg : getTile b r c = some t) (hm : t.isMine = true) : updateAdjacentAt b r c = b := by
  unfold updateAdjacentAt
  simp only [hg, hm, if_true]

theorem updateAdjacentAt_self_nonmine {b : Board} {r c : Nat} {t : Tile}
    (hg : getTile b r c = some t) (hm : t.isMine = false) :
    getTile (updateAdjacentAt b r c) r c
      = some { t with adjacentMines := countAdjacentMines b r c } := by
  have hupd : updateAdjacentAt b r c
      = setTile b r c (fun t0 => { t0 with adjacentMines := countAdjacentMines b r c }) := by
    simp only [updateAdjacentAt, hg, hm, if_false, Bool.false_eq_true]
  rw [hupd]
  exact getTile_setTile_same _ hg

theorem sameMines_updateAdjacentAt (b : Board) (r c : Nat) :
    SameMines b (updateAdjacentAt b r c) := by
  intro i j
  by_cases hij : r = i ∧ c = j
  · obtain ⟨hi, hj⟩ := hij
    subst hi; subst hj
    cases hg : getTile b r c with
    | none =>
      have hupd : updateAdjacentAt b r c = b := by simp only [updateAdjacentAt, hg]
      rw [hupd, hg]
    | some t =>
      by_cases hm : t.isMine = true
      · rw [updateAdjacentAt_self_mine hg hm, hg]
      · have hm' : t.isMine = false := by
          cases hM : t.isMine
          · rfl
          · exact absurd hM hm
        rw [updateAdjacentAt_self_nonmine hg hm']
        rfl
  · rw [updateAdjacentAt_ne hij]

theorem calcFold_not_mem :
    ∀ (ps : List (Nat × Nat)) (acc : Board) (r c : Nat), (r, c) ∉ ps →
    getTile (ps.foldl (fun a p => updateAdjacentAt a p.1 p.2) acc) r c = getTile acc r c := by
  intro ps
  induction ps with
  | nil => intro acc r c _; rfl
  | cons p ps ihps =>
    intro acc r c h
    simp only [List.foldl_cons]
    have hne : ¬(p.1 = r ∧ p.2 = c) := by
      rintro ⟨h1, h2⟩
      exact h (by cases p; simp at h1 h2; subst h1; subst h2; exact List.mem_cons_self _ _)
    rw [ihps _ r c (fun hmem => h (List.mem_cons_of_mem _ hmem)), updateAdjacentAt_ne hne]

theorem calcFold_adj :
    ∀ (ps : List (Nat × Nat)) (acc b0 : Board), SameMines b0 acc →
    ∀ (r c : Nat), (r, c) ∈ ps → ∀ t, getTile acc r c = some t → t.isMine = false →
    ∃ t', getTile (ps.foldl (fun a p => updateAdjacentAt a p.1 p.2) acc) r c = some t' ∧
      t'.isMine = false ∧ t'.isRevealed = t.isRevealed ∧ t'.isFlagged = t.isFlagged ∧
      t'.adjacentMines = countAdjacentMines b0 r c := by
  intro ps
  induction ps with
  | nil => intro acc b0 _ r c hmem; cases hmem
  | cons p ps ihps =>
    intro acc b0 hsm r c hmem t hg hm
    simp only [List.foldl_cons]
    by_cases hp : p = (r, c)
    · subst hp
      have hupd := updateAdjacentAt_self_nonmine hg hm
      have hsm' : SameMines b0 (updateAdjacentAt acc r c) :=
        sameMines_trans hsm (sameMines_updateAdjacentAt acc r c)
      have hcnt : countAdjacentMines acc r c = countAdjacentMines b0 r c :=
        (countAdjacentMines_congr hsm r c).symm
      by_cases hin : (r, c) ∈ ps
      · obtain ⟨t', hgt', hm', hr', hf', ha'⟩ :=
          ihps (updateAdjacentAt acc r c) b0 hsm' r c hin _ hupd hm
        exact ⟨t', hgt', hm', hr', hf', ha'⟩
      · rw [calcFold_not_mem ps _ r c hin, hupd]
        exact ⟨_, rfl, hm, rfl, rfl, hcnt⟩
    · have hne : ¬(p.1 = r ∧ p.2 = c) := by
        rintro ⟨h1, h2⟩
        exact hp (by cases p; simp at h1 h2; subst h1; subst h2; rfl)
      have hg' : getTile (updateAdjacentAt acc p.1 p.2) r c = some t := by
        rw [updateAdjacentAt_ne hne]; exact hg
      have hmem' : (r, c) ∈ ps := by
        rcases List.mem_cons.mp hmem with he | hmem'
        · exact absurd he.symm hp
        · exact hmem'
      exact ihps _ b0 (sameMines_trans hsm (sameMines_updateAdjacentAt acc p.1 p.2)) r c hmem' t hg' hm

theorem mem_allCells {r c : Nat} (hr : r < BOARD_SIZE) (hc : c < BOARD_SIZE) :
    (r, c) ∈ allCells := by
  unfold allCells
  exact List.mem_flatMap.mpr ⟨r, List.mem_range.mpr hr,
    List.mem_map.mpr ⟨c, List.mem_range.mpr hc, rfl⟩⟩

theorem foldl_count_eq_countP {α : Type} (p : α → Bool) :
    ∀ (l : List α) (n : Nat),
      l.foldl (fun acc a => if p a then acc + 1 else acc) n = n + l.countP p := by
  intro l
  induction l with
  | nil => intro n; simp
  | cons a l ihl =>
    intro n
    simp only [List.foldl_cons, List.countP_cons, ihl]
    by_cases hpa : p a = true
    · simp [hpa]; omega
    · simp [hpa]

theorem countAdjacentMines_eq_countP (b : Board) (r c : Nat) :
    countAdjacentMines b r c = (neighbors r c).countP (fun p => mineAt b p.1 p.2) := by
  unfold countAdjacentMines
  rw [foldl_count_eq_countP]
  simp

/-! ### Operations that never touch `isRevealed` / `isFlagged` -/

def SameRevFlag (b b' : Board) : Prop :=
  ∀ i j, (getTile b i j = none ∧ getTile b' i j = none) ∨
    ∃ t t', getTile b i j = some t ∧ getTile b' i j = some t' ∧
      t'.isRevealed = t.isRevealed ∧ t'.isFlagged = t.isFlagged

theorem sameRevFlag_refl (b : Board) : SameRevFlag b b := by
  intro i j
  cases hg : getTile b i j with
  | none => exact Or.inl ⟨rfl, rfl⟩
  | some t => exact Or.inr ⟨t, t, rfl, rfl, rfl, rfl⟩

theorem sameRevFlag_trans {b b' b'' : Board} (h1 : SameRevFlag b b') (h2 : SameRevFlag b' b'') :
    SameRevFlag b b'' := by
  intro i j
  rcases h1 i j with ⟨hn, hn'⟩ | ⟨t, t', hg, hg', hr, hf⟩
  · rcases h2 i j with ⟨_, hn''⟩ | ⟨u, u', hgu, _, _, _⟩
    · exact Or.inl ⟨hn, hn''⟩
    · rw [hn'] at hgu; cases hgu
  · rcases h2 i j with ⟨hnu, _⟩ | ⟨u, u', hgu, hgu', hru, hfu⟩
    · rw [hg'] at hnu; cases hnu
    · rw [hg'] at hgu
      cases hgu
      exact Or.inr ⟨t, u', hg, hgu', hru.trans hr, hfu.trans hf⟩

theorem SameRevFlag.of_getTile_some {b b' : Board} (h : SameRevFlag b b') {i j : Nat} {t' : Tile}
    (hg' : getTile b' i j = some t') :
    ∃ t, getTile b i j = some t ∧ t'.isRevealed = t.isRevealed ∧ t'.isFlagged = t.isFlagged := by
  rcases h i j with ⟨_, hn'⟩ | ⟨t, u', hg, hgu', hr, hf⟩
  · rw [hg'] at hn'; cases hn'
  · rw [hg'] at hgu'
    cases hgu'
    exact ⟨t, hg, hr, hf⟩

theorem sameRevFlag_setTile (b : Board) (r c : Nat) (f : Tile → Tile)
    (hf : ∀ t0, (f t0).isRevealed = t0.isRevealed ∧ (f t0).isFlagged = t0.isFlagged) :
    SameRevFlag b (setTile b r c f) := by
  intro i j
  rw [getTile_setTile]
  by_cases hij : r = i ∧ c = j
  · rw [if_pos hij]
    cases hg : getTile b i j with
    | none => exact Or.inl ⟨rfl, rfl⟩
    | some t => exact Or.inr ⟨t, f t, rfl, rfl, (hf t).1, (hf t).2⟩
  · rw [if_neg hij]
    exact sameRevFlag_refl b i j

theorem sameRevFlag_createMinesLoop :
    ∀ (draws : List (Nat × Nat)) (b : Board) (placed : Nat),
      SameRevFlag b (createMinesLoop b placed draws) := by
  intro draws
  induction draws with
  | nil => intro b placed; exact sameRevFlag_refl b
  | cons d rest ih =>
    intro b placed
    obtain ⟨r, c⟩ := d
    by_cases hpl : placed < NUM_MINES
    · simp only [createMinesLoop, if_pos hpl]
      cases hg : getTile b r c with
      | none => exact ih b placed
      | some t =>
        by_cases hm : t.isMine = true
        · simp only [hm, if_true]
          exact ih b placed
        · simp only [hm, if_false, Bool.false_eq_true]
          exact sameRevFlag_trans (sameRevFlag_setTile b r c (fun t0 => { t0 with isMine := true })
            (fun t0 => ⟨rfl, rfl⟩)) (ih _ _)
    · simp only [createMinesLoop, if_neg hpl]
      exact sameRevFlag_refl b

theorem sameRevFlag_updateAdjacentAt (b : Board) (r c : Nat) :
    SameRevFlag b (updateAdjacentAt b r c) := by
  unfold updateAdjacentAt
  cases hg : getTile b r c with
  | none => exact sameRevFlag_refl b
  | some t =>
    by_cases hm : t.isMine = true
    · simp only [hm, if_true]
      exact sameRevFlag_refl b
    · simp only [hm, if_false, Bool.false_eq_true]
      exact sameRevFlag_setTile b r c
        (fun t0 => { t0 with adjacentMines := countAdjacentMines b r c }) (fun t0 => ⟨rfl, rfl⟩)

theorem sameRevFlag_calc (b : Board) : SameRevFlag b (calculateAdjacentMines b) := by
  rw [calculateAdjacentMines_eq_fold]
  generalize allCells = ps
  induction ps generalizing b with
  | nil => exact sameRevFlag_refl b
  | cons p ps ihps =>
    simp only [List.foldl_cons]
    exact sameRevFlag_trans (sameRevFlag_updateAdjacentAt b p.1 p.2) (ihps _)

theorem sameRevFlag_createEmptyBoard (draws : List (Nat × Nat)) :
    SameRevFlag blankBoard (createEmptyBoard draws) :=
  sameRevFlag_trans (sameRevFlag_createMinesLoop draws blankBoard 0)
    (sameRevFlag_calc (createMinesLoop blankBoard 0 draws))

/-! ### Win condition ignores flags -/

def setFlagsRow : (Nat → Bool) → List Tile → List Tile
  | _, [] => []
  | g, t :: ts => { t with isFlagged := g 0 } :: setFlagsRow (fun j => g (j + 1)) ts

/-- Rewrite every tile's `isFlagged` to an arbitrary position-dependent
    pattern, leaving all other fields alone. -/
def setFlagsBoard : (Nat → Nat → Bool) → Board → Board
  | _, [] => []
  | g, row :: rows => setFlagsRow (g 0) row :: setFlagsBoard (fun i => g (i + 1)) rows

theorem countP_setFlagsRow (p : Tile → Bool) (hp : ∀ t x, p { t with isFlagged := x } = p t) :
    ∀ (g : Nat → Bool) (row : List Tile), (setFlagsRow g row).countP p = row.countP p := by
  intro g row
  induction row generalizing g with
  | nil => rfl
  | cons t ts ih =>
    simp only [setFlagsRow, List.countP_cons, ih, hp]

theorem countP_setFlagsBoard (p : Tile → Bool) (hp : ∀ t x, p { t with isFlagged := x } = p t) :
    ∀ (g : Nat → Nat → Bool) (b : Board),
      (setFlagsBoard g b).flatten.countP p = b.flatten.countP p := by
  intro g b
  induction b generalizing g with
  | nil => rfl
  | cons row rows ih =>
    simp only [setFlagsBoard, List.flatten_cons, List.countP_append, ih,
      countP_setFlagsRow p hp]

/-! ### Miscellaneous helpers for the handlers -/

theorem all_false_of_mine {b : Board} {r c : Nat} {t : Tile}
    (hg : getTile b r c = some t) (hm : t.isMine = true) :
    b.flatten.all (fun t0 => !t0.isMine && !t0.isRevealed) = false := by
  cases hall : b.flatten.all (fun t0 => !t0.isMine && !t0.isRevealed)
  · rfl
  · have := List.all_eq_true.mp hall t (getTile_mem hg)
    rw [hm] at this
    simp at this

theorem revealBoard_revealed {b : Board} {i j : Nat} {u : Tile}
    (h : getTile (revealBoard b) i j = some u) : u.isRevealed = true := by
  rw [getTile_revealBoard] at h
  cases hg : getTile b i j with
  | none => rw [hg] at h; cases h
  | some t => rw [hg] at h; cases h; rfl

/-! ### Concrete game scenarios used in counterexamples and witnesses -/

/-- Fifteen distinct draw cells: rows 5 and 6. -/
def drawsRows56 : List (Nat × Nat) :=
  [(5, 0), (5, 1), (5, 2), (5, 3), (5, 4), (5, 5), (5, 6), (5, 7), (5, 8), (5, 9),
   (6, 0), (6, 1), (6, 2), (6, 3), (6, 4)]

def sFreshC5 : GameState :=
  { board := blankBoard, isGameOver := false, isGameWon := false, flagsLeft := INITIAL_FLAGS }

/-- The state after right-clicking the ten tiles of row 0 from a fresh state:
    all ten flags are used up. -/
def sTenC5 : GameState := (List.range 10).foldl (fun s c => handleTileRightClick s 0 c) sFreshC5

def bFlag33 : Board := setTile blankBoard 3 3 (fun t0 => { t0 with isFlagged := true })

def sFreshC5w : GameState :=
  { board := blankBoard, isGameOver := false, isGameWon := false, flagsLeft := INITIAL_FLAGS }

/-! ### Claim C1 -/

/-- C1 fails on the code: `createEmptyBoard` is not mine-free — it randomly
    places `NUM_MINES` mines before returning, so the board installed by
    `handleReset` contains 15 mines, not zero.  With the explicit draw list
    `drawsRows56`, tile (5,0) of the reset board is a mine and the board
    holds exactly 15 mines. -/
theorem C1_counterexample :
    (getTile ((handleReset drawsRows56).board) 5 0).map Tile.isMine = some true ∧
    mineCount ((handleReset drawsRows56).board) = NUM_MINES := by
  decide

/-- C1 (amended): every tile of the board installed by reset has
    `isRevealed = false` and `isFlagged = false` (and `handleReset` resets the
    status flags), but mines are randomly placed by `createEmptyBoard`, so the
    reset board is not mine-free. -/
theorem C1_reset_board_unrevealed_unflagged :
    ∀ (draws : List (Nat × Nat)) (i j : Nat) (t : Tile),
      getTile ((handleReset draws).board) i j = some t →
      t.isRevealed = false ∧ t.isFlagged = false := by
  intro draws i j t hg
  have hb : (handleReset draws).board = createEmptyBoard draws := by
    simp only [handleReset]
  rw [hb] at hg
  obtain ⟨t0, hg0, hr, hf⟩ := (sameRevFlag_createEmptyBoard draws).of_getTile_some hg
  have ht0 : t0 = emptyTile := getTile_blankBoard hg0
  subst ht0
  exact ⟨hr, hf⟩

theorem C1_witness :
    getTile ((handleReset ([] : List (Nat × Nat))).board) 0 0 = some emptyTile ∧
    emptyTile.isRevealed = false ∧ emptyTile.isFlagged = false :=
  ⟨by decide, C1_reset_board_unrevealed_unflagged [] 0 0 emptyTile (by decide)⟩

/-! ### Claim C7 -/

/-- C7: `checkWinCondition` is true exactly when the number of revealed
    non-mine tiles equals `BOARD_SIZE * BOARD_SIZE - NUM_MINES` (= 85), and
    rewriting the `isFlagged` field of every tile in any pattern leaves the
    result unchanged: flags have no effect on win detection. -/
theorem C7_checkWinCondition_spec :
    ∀ (b : Board),
      (checkWinCondition b = true ↔
        (b.flatten.filter (fun t => t.isRevealed && !t.isMine)).length
          = BOARD_SIZE * BOARD_SIZE - NUM_MINES) ∧
      (∀ g : Nat → Nat → Bool, checkWinCondition (setFlagsBoard g b) = checkWinCondition b) := by
  intro b
  constructor
  · unfold checkWinCondition
    exact beq_iff_eq
  · intro g
    unfold checkWinCondition
    rw [← List.countP_eq_length_filter, ← List.countP_eq_length_filter,
      countP_setFlagsBoard (fun t => t.isRevealed && !t.isMine) (fun t x => rfl) g b]

/-! ### Claim C9 -/

/-- C9: `revealTile` is a no-op on an already-revealed or flagged target:
    it returns a board equal to its input. -/
theorem C9_revealTile_noop_idempotent :
    ∀ (b : Board) (r c : Nat) (t : Tile),
      getTile b r c = some t → (t.isRevealed = true ∨ t.isFlagged = true) →
      revealTile b r c = b := by
  intro b r c t hg hor
  apply revealTile_noop hg
  rcases hor with h | h
  · rw [h]; rfl
  · rw [h]; simp

theorem C9_witness :
    revealTile bFlag33 3 3 = bFlag33 :=
  C9_revealTile_noop_idempotent bFlag33 3 3 { emptyTile with isFlagged := true }
    (by decide) (Or.inr rfl)

/-! ### Claim C5 -/

/-- C5 fails on the code: with all ten flags used (`flagsLeft = 0`), a
    right-click on an unrevealed unflagged tile does not flip `isFlagged`
    (the state is returned unchanged), so not every unrevealed tile can
    always be flagged, and the 15 mines can never all be flagged at once
    under the 10-flag budget. -/
theorem C5_counterexample :
    sTenC5.flagsLeft = 0 ∧
    (getTile sTenC5.board 1 0).map (fun t => (t.isRevealed, t.isFlagged)) = some (false, false) ∧
    handleTileRightClick sTenC5 1 0 = sTenC5 := by
  decide

/-- C5 (amended): in a non-terminal state the flag toggle is a no-op on a
    revealed tile; on an unrevealed flagged tile it clears the flag and
    refunds a flag; on an unrevealed unflagged tile it sets the flag only
    when `flagsLeft > 0` (spending a flag), and is a no-op when the flag
    budget is exhausted. -/
theorem C5_toggleFlag_cases :
    ∀ (s : GameState) (r c : Nat) (t : Tile),
      s.isGameOver = false → s.isGameWon = false → getTile s.board r c = some t →
      (t.isRevealed = true → handleTileRightClick s r c = s) ∧
      (t.isRevealed = false → t.isFlagged = true →
        handleTileRightClick s r c
          = { s with board := setTile s.board r c (fun t0 => { t0 with isFlagged := false }),
                     flagsLeft := s.flagsLeft + 1 }) ∧
      (t.isRevealed = false → t.isFlagged = false → 0 < s.flagsLeft →
        handleTileRightClick s r c
          = { s with board := setTile s.board r c (fun t0 => { t0 with isFlagged := true }),
                     flagsLeft := s.flagsLeft - 1 }) ∧
      (t.isRevealed = false → t.isFlagged = false → s.flagsLeft = 0 →
        handleTileRightClick s r c = s) := by
  intro s r c t hGO hGW hg
  refine ⟨?_, ?_, ?_, ?_⟩
  · intro hR
    simp [handleTileRightClick, hGO, hGW, hg, hR]
  · intro hR hF
    simp [handleTileRightClick, hGO, hGW, hg, hR, hF]
  · intro hR hF hL
    simp [handleTileRightClick, hGO, hGW, hg, hR, hF, hL]
  · intro hR hF hL
    simp [handleTileRightClick, hGO, hGW, hg, hR, hF, hL]

theorem C5_witness :
    handleTileRightClick sFreshC5w 0 0
      = { sFreshC5w with
            board := setTile blankBoard 0 0 (fun t0 => { t0 with isFlagged := true }),
            flagsLeft := 9 } :=
  (C5_toggleFlag_cases sFreshC5w 0 0 emptyTile rfl rfl (by decide)).2.2.1 rfl rfl (by decide)

/-! ### Claim C2 -/

theorem noRevealedFlagged_iff (b : Board) :
    noRevealedFlagged b = true ↔
      ∀ i j t, getTile b i j = some t → t.isRevealed = true → t.isFlagged = false := by
  unfold noRevealedFlagged
  constructor
  · intro h i j t hg hr
    obtain ⟨row, hrw, hc⟩ := getTile_some_elim hg
    have h1 := List.all_eq_true.mp h row (List.getElem?_mem hrw)
    have h2 := List.all_eq_true.mp h1 t (List.getElem?_mem hc)
    rw [hr] at h2
    cases hF : t.isFlagged
    · rfl
    · rw [hF] at h2; simp at h2
  · intro h
    apply List.all_eq_true.mpr
    intro row hrow
    apply List.all_eq_true.mpr
    intro t ht
    obtain ⟨i, hi⟩ := List.mem_iff_getElem?.mp hrow
    obtain ⟨j, hj⟩ := List.mem_iff_getElem?.mp ht
    have hg : getTile b i j = some t := by
      unfold getTile; rw [hi]; simpa using hj
    cases hR : t.isRevealed
    · rfl
    · rw [h i j t hg hR]
      rfl

theorem BoardStep.getTile_some_rev {b b' : Board} (h : BoardStep b b') {i j : Nat} {t' : Tile}
    (hg' : getTile b' i j = some t') :
    ∃ t, getTile b i j = some t ∧ TileStep t t' := by
  rcases h i j with ⟨_, hn'⟩ | ⟨t, u', hg, hgu', hs⟩
  · rw [hg'] at hn'; cases hn'
  · rw [hg'] at hgu'
    cases hgu'
    exact ⟨t, hg, hs⟩

theorem noRevealedFlagged_setFlag {b : Board} {r c : Nat} {t : Tile} {x : Bool}
    (hb : noRevealedFlagged b = true) (hg : getTile b r c = some t)
    (hrev : t.isRevealed = false) :
    noRevealedFlagged (setTile b r c (fun t0 => { t0 with isFlagged := x })) = true := by
  rw [noRevealedFlagged_iff] at hb ⊢
  intro i j t' hg' hr'
  rw [getTile_setTile] at hg'
  by_cases hij : r = i ∧ c = j
  · obtain ⟨hi, hj⟩ := hij
    subst hi; subst hj
    rw [if_pos ⟨rfl, rfl⟩, hg] at hg'
    simp only [Option.map_some', Option.some.injEq] at hg'
    subst hg'
    rw [show ({ t with isFlagged := x } : Tile).isRevealed = t.isRevealed from rfl, hrev] at hr'
    cases hr'
  · rw [if_neg hij] at hg'
    exact hb i j t' hg' hr'

/-- C2 fails on the code: on a loss it produces a tile that is
    simultaneously revealed and flagged, on a reachable state: reset with the draws
    `drawsRows56`, flag tile (0,0), then left-click the mine at (5,0).
    The loss handler commits `revealBoard`, which sets `isRevealed := true`
    on the still-flagged tile (0,0). -/
theorem C2_counterexample :
    (handleTileClick (handleTileRightClick (handleReset drawsRows56) 0 0) 5 0 []).isGameOver
        = true ∧
    (getTile (handleTileClick (handleTileRightClick (handleReset drawsRows56) 0 0) 5 0 []).board
        0 0).map (fun t => (t.isRevealed, t.isFlagged)) = some (true, true) := by
  constructor
  · decide
  · decide

/-- C2 (amended): the reveal and flag-toggle operations preserve the
    invariant that no tile is both revealed and flagged; the exception is
    `revealBoard` (applied by the controller on win and loss), which sets
    `isRevealed := true` while keeping `isFlagged`, so after a terminal
    transition flagged tiles are both revealed and flagged. -/
theorem C2_noRevealedFlagged_preserved :
    ∀ (s : GameState) (r c : Nat),
      noRevealedFlagged s.board = true →
      noRevealedFlagged (revealTile s.board r c) = true ∧
      noRevealedFlagged (handleTileRightClick s r c).board = true := by
  intro s r c hinv
  constructor
  · rw [noRevealedFlagged_iff]
    intro i j t' hg' hr'
    obtain ⟨t, hg, hs⟩ := (boardStep_revealTile s.board r c).getTile_some_rev hg'
    obtain ⟨hm, hfl, hadj, hmono, hflagrev⟩ := hs
    cases hF : t.isFlagged
    · rw [hfl, hF]
    · have hrr : t.isRevealed = true := by rw [← hflagrev hF, hr']
      have := (noRevealedFlagged_iff s.board).mp hinv i j t hg hrr
      rw [hF] at this; cases this
  · by_cases hterm : (s.isGameOver || s.isGameWon) = true
    · simp only [handleTileRightClick, hterm, if_true]
      exact hinv
    · cases hg : getTile s.board r c with
      | none =>
        simp only [handleTileRightClick, hterm, if_false, Bool.false_eq_true, hg]
        exact hinv
      | some t =>
        cases hR : t.isRevealed with
        | true =>
          simp only [handleTileRightClick, hterm, if_false, Bool.false_eq_true, hg, hR,
            Bool.not_true]
          exact hinv
        | false =>
          cases hF : t.isFlagged with
          | true =>
            simp only [handleTileRightClick, hterm, if_false, Bool.false_eq_true, hg, hR, hF,
              Bool.not_false, if_true]
            exact noRevealedFlagged_setFlag hinv hg hR
          | false =>
            by_cases hL : s.flagsLeft > 0
            · simp only [handleTileRightClick, hterm, if_false, Bool.false_eq_true, hg, hR, hF,
                Bool.not_false, if_true, hL]
              exact noRevealedFlagged_setFlag hinv hg hR
            · simp only [handleTileRightClick, hterm, if_false, Bool.false_eq_true, hg, hR, hF,
                Bool.not_false, if_true, hL]
              exact hinv

def sC2w : GameState :=
  { board := setTile blankBoard 0 0 (fun t0 => { t0 with isFlagged := true }),
    isGameOver := false, isGameWon := false, flagsLeft := 9 }

theorem C2_witness :
    noRevealedFlagged (revealTile sC2w.board 1 1) = true ∧
    noRevealedFlagged (handleTileRightClick sC2w 1 1).board = true :=
  C2_noRevealedFlagged_preserved sC2w 1 1 (by decide)

/-! ### Claim C4 -/

/-- A one-mine board: `placeMines` puts a mine at (0,0) (excluded cell (9,9))
    and `calculateAdjacentMines` fills in the neighbour counts.  The mine
    itself keeps `adjacentMines = 0` because the loop skips mine cells. -/
def bMineC4 : Board := calculateAdjacentMines (placeMines blankBoard 1 9 9 [(0, 0)])

/-- C4 fails on the code: revealing the unrevealed, unflagged mine at (0,0)
    does not reveal just that tile — `revealTile` has no `isMine` check
    before recursing, and mine tiles always carry `adjacentMines = 0`, so the
    flood fill also reveals the neighbour (0,1). -/
theorem C4_counterexample :
    (getTile bMineC4 0 0).map (fun t => (t.isMine, t.isRevealed, t.isFlagged, t.adjacentMines))
        = some (true, false, false, 0) ∧
    (getTile (revealTile bMineC4 0 0) 0 1).map Tile.isRevealed = some true := by
  constructor
  · decide
  · decide

/-- C4 (amended): `revealTile` expands to neighbours exactly when the target
    tile's `adjacentMines = 0`, regardless of `isMine`.  A target with
    `adjacentMines ≠ 0` changes only the clicked tile; a target with
    `adjacentMines = 0` — in particular any mine, since mine tiles keep
    `adjacentMines = 0` — is revealed together with every unflagged in-bounds
    neighbour. -/
theorem C4_reveal_mine_floods :
    ∀ (b : Board) (r c : Nat) (t : Tile),
      getTile b r c = some t → t.isRevealed = false → t.isFlagged = false →
      (t.adjacentMines ≠ 0 →
        revealTile b r c = setTile b r c (fun t0 => { t0 with isRevealed := true })) ∧
      (∃ t', getTile (revealTile b r c) r c = some t' ∧ t'.isRevealed = true) ∧
      (t.adjacentMines = 0 → ∀ q, q ∈ neighbors r c → ∀ u, getTile b q.1 q.2 = some u →
        u.isFlagged = false →
        ∃ u', getTile (revealTile b r c) q.1 q.2 = some u' ∧ u'.isRevealed = true) := by
  intro b r c t hg hR hF
  have hrf : (t.isRevealed || t.isFlagged) = false := by rw [hR, hF]; rfl
  refine ⟨?_, ?_, ?_⟩
  · intro hadj
    show revealTileAux (BOARD_SIZE * BOARD_SIZE + 1) b r c = _
    simp only [revealTileAux, hg, hrf, if_false, Bool.false_eq_true, hadj, if_true]
  · exact revealTileAux_self_revealed (show 1 ≤ BOARD_SIZE * BOARD_SIZE + 1 by decide) hg hF
  · intro hadj q hq u hgu hfu
    show ∃ u', getTile (revealTileAux (BOARD_SIZE * BOARD_SIZE + 1) b r c) q.1 q.2 = some u' ∧
      u'.isRevealed = true
    simp only [revealTileAux, hg, hrf, if_false, Bool.false_eq_true, hadj, if_true]
    by_cases hqrc : r = q.1 ∧ c = q.2
    · obtain ⟨h1, h2⟩ := hqrc
      have hb1 : getTile (setTile b r c (fun t0 => { t0 with isRevealed := true })) q.1 q.2
          = some { t with isRevealed := true } := by
        rw [← h1, ← h2]
        exact getTile_setTile_same _ hg
      obtain ⟨u', hgu', hs⟩ := (boardStep_foldl (BOARD_SIZE * BOARD_SIZE) _ _).getTile_some hb1
      exact ⟨u', hgu', hs.2.2.2.1 rfl⟩
    · have hb1 : getTile (setTile b r c (fun t0 => { t0 with isRevealed := true })) q.1 q.2
          = some u := by
        rw [getTile_setTile_ne r c _ hqrc]
        exact hgu
      exact foldl_reveals_mem (show 1 ≤ BOARD_SIZE * BOARD_SIZE by decide)
        (neighbors r c) _ q hq u hb1 hfu

def bC4w : Board := calculateAdjacentMines (placeMines blankBoard 1 0 0 [(5, 5)])

theorem C4_witness :
    (∃ t', getTile (revealTile bC4w 5 5) 5 5 = some t' ∧ t'.isRevealed = true) ∧
    (∃ u', getTile (revealTile bC4w 5 5) 5 6 = some u' ∧ u'.isRevealed = true) :=
  ⟨(C4_reveal_mine_floods bC4w 5 5 { emptyTile with isMine := true } (by decide) rfl rfl).2.1,
   (C4_reveal_mine_floods bC4w 5 5 { emptyTile with isMine := true } (by decide) rfl rfl).2.2
     rfl (5, 6) (by decide) { emptyTile with adjacentMines := 1 } (by decide) rfl⟩

/-! ### Claim C6 -/

def bFlagC6 : Board := setTile blankBoard 2 2 (fun t0 => { t0 with isFlagged := true })

/-- C6: the flood fill never reveals a flagged tile (a flagged tile comes out
    of `revealTile` completely unchanged), and it terminates on every
    well-formed board — including an all-zero-adjacency one — because any
    fuel above the 100-tile bound computes the same result: the recursion
    never revisits a tile it has already revealed. -/
theorem C6_floodfill_flag_safe_terminates :
    ∀ (b : Board) (r c : Nat),
      (∀ i j t, getTile b i j = some t → t.isFlagged = true →
        getTile (revealTile b r c) i j = some t) ∧
      (Wf b → ∀ f, BOARD_SIZE * BOARD_SIZE < f → revealTileAux f b r c = revealTile b r c) := by
  intro b r c
  constructor
  · intro i j t hg hf
    obtain ⟨t', hg', hs⟩ := (boardStep_revealTile b r c).getTile_some hg
    obtain ⟨hm, hfl, hadj, hmono, hflagrev⟩ := hs
    have hr' : t'.isRevealed = t.isRevealed := hflagrev hf
    have ht : t' = t := by
      cases t
      cases t'
      simp_all
    rw [hg', ht]
  · intro hW f hf
    exact revealTileAux_fuel_ge hW hf r c

theorem C6_witness :
    getTile (revealTile bFlagC6 0 0) 2 2 = some { emptyTile with isFlagged := true } ∧
    revealTileAux 102 blankBoard 0 0 = revealTile blankBoard 0 0 :=
  ⟨(C6_floodfill_flag_safe_terminates bFlagC6 0 0).1 2 2 { emptyTile with isFlagged := true }
      (by decide) rfl,
   (C6_floodfill_flag_safe_terminates blankBoard 0 0).2 (by decide) 102 (by decide)⟩

/-! ### Claim C8 -/

theorem inBounds_of_getTile {b : Board} (hW : Wf b) {r c : Nat} {t : Tile}
    (h : getTile b r c = some t) : r < BOARD_SIZE ∧ c < BOARD_SIZE := by
  obtain ⟨row, hr, hc⟩ := getTile_some_elim h
  have h1 : r < b.length := (List.getElem?_eq_some.mp hr).1
  have h2 : c < row.length := (List.getElem?_eq_some.mp hc).1
  exact ⟨hW.1 ▸ h1, hW.2 row (List.getElem?_mem hr) ▸ h2⟩

/-- C8: after `calculateAdjacentMines`, every non-mine tile carries exactly
    the number of mines among its in-bounds Moore neighbours (computed on
    the input board; the pass never changes any `isMine` field), and its
    other fields are untouched. -/
theorem C8_adjacency_exact :
    ∀ (b : Board) (r c : Nat) (t : Tile), Wf b →
      getTile b r c = some t → t.isMine = false →
      ∃ t', getTile (calculateAdjacentMines b) r c = some t' ∧
        t'.isMine = false ∧ t'.isRevealed = t.isRevealed ∧ t'.isFlagged = t.isFlagged ∧
        t'.adjacentMines = (neighbors r c).countP (fun p => mineAt b p.1 p.2) := by
  intro b r c t hW hg hm
  rw [calculateAdjacentMines_eq_fold]
  obtain ⟨hr, hc⟩ := inBounds_of_getTile hW hg
  obtain ⟨t', h1, h2, h3, h4, h5⟩ := calcFold_adj allCells b b (fun i j => rfl) r c
    (mem_allCells hr hc) t hg hm
  exact ⟨t', h1, h2, h3, h4, by rw [h5, countAdjacentMines_eq_countP]⟩

def bC8w : Board := createMinesLoop blankBoard 0 [(0, 0)]

theorem C8_witness :
    ∃ t', getTile (calculateAdjacentMines bC8w) 0 1 = some t' ∧
      t'.isMine = false ∧ t'.isRevealed = emptyTile.isRevealed ∧
      t'.isFlagged = emptyTile.isFlagged ∧
      t'.adjacentMines = (neighbors 0 1).countP (fun p => mineAt bC8w p.1 p.2) :=
  C8_adjacency_exact bC8w 0 1 emptyTile (by decide) (by decide) rfl

/-! ### Claim C10 -/

/-- C10: in an in-progress game, left-clicking a flagged mine loses the game
    and force-reveals the whole board even though `revealTile` itself leaves
    the flagged tile unrevealed: the loss check reads `isMine` on the clicked
    cell of the (unchanged) board, so a flag does not protect against a
    direct click. -/
theorem C10_flagged_mine_click_loses :
    ∀ (s : GameState) (r c : Nat) (draws : List (Nat × Nat)) (t : Tile),
      s.isGameOver = false → s.isGameWon = false →
      getTile s.board r c = some t → t.isFlagged = true → t.isMine = true →
      handleTileClick s r c draws = { s with isGameOver := true, board := revealBoard s.board } ∧
      revealTile s.board r c = s.board ∧
      (∀ i j u, getTile (revealBoard s.board) i j = some u → u.isRevealed = true) := by
  intro s r c draws t hGO hGW hg hF hM
  have hrf : (t.isRevealed || t.isFlagged) = true := by rw [hF]; simp
  have hnoop : revealTile s.board r c = s.board := revealTile_noop hg hrf
  have hall := all_false_of_mine hg hM
  refine ⟨?_, hnoop, fun i j u hu => revealBoard_revealed hu⟩
  simp only [handleTileClick, hGO, hGW, Bool.or_self, Bool.false_eq_true, if_false, hall,
    hnoop, hg, Option.map_some', hM, Option.getD_some, if_true]

def bC10 : Board := setTile blankBoard 0 0 (fun t0 => { t0 with isMine := true, isFlagged := true })

def sC10 : GameState := { board := bC10, isGameOver := false, isGameWon := false, flagsLeft := 9 }

theorem C10_witness :
    handleTileClick sC10 0 0 [] = { sC10 with isGameOver := true, board := revealBoard sC10.board } ∧
    revealTile sC10.board 0 0 = sC10.board ∧
    (∀ i j u, getTile (revealBoard sC10.board) i j = some u → u.isRevealed = true) :=
  C10_flagged_mine_click_loses sC10 0 0 [] { emptyTile with isMine := true, isFlagged := true }
    rfl rfl (by decide) rfl rfl

/-! ### Claim C3 -/

/-- A mine-free, reveal-free board with flags on (0,1), (1,0) and (1,1):
    exactly the state in which the first-click branch of `handleTileClick`
    fires (the guard only checks `!isMine && !isRevealed`, not flags). -/
def flag3Board : Board :=
  setTile (setTile (setTile blankBoard 0 1 (fun t0 => { t0 with isFlagged := true })) 1 0
    (fun t0 => { t0 with isFlagged := true })) 1 1 (fun t0 => { t0 with isFlagged := true })

def sNoMinesC3 : GameState :=
  { board := flag3Board, isGameOver := false, isGameWon := false, flagsLeft := 7 }

/-- Fifteen distinct draw cells in rows 2 and 3, all away from the clicked
    cell (0,0). -/
def drawsRows23 : List (Nat × Nat) :=
  [(2, 0), (2, 1), (2, 2), (2, 3), (2, 4), (2, 5), (2, 6), (2, 7), (2, 8), (2, 9),
   (3, 0), (3, 1), (3, 2), (3, 3), (3, 4)]

/-- C3 is the intended protocol, but the code deviates from it: on the very
    first reveal (guard true, first conjunct) the handler builds and commits
    the mined board (15 mines, second conjunct), yet it then runs
    `revealTile` against the stale pre-placement board and commits that
    result, overwriting the mined board — the final board contains zero
    mines (third conjunct) while the clicked tile is revealed in it (fourth
    conjunct).  The reveal is therefore not performed against the committed
    mined board. -/
theorem C3_first_click_reveals_stale_board :
    sNoMinesC3.board.flatten.all (fun t => !t.isMine && !t.isRevealed) = true ∧
    mineCount (calculateAdjacentMines (placeMines sNoMinesC3.board NUM_MINES 0 0 drawsRows23))
        = NUM_MINES ∧
    mineCount ((handleTileClick sNoMinesC3 0 0 drawsRows23).board) = 0 ∧
    (getTile ((handleTileClick sNoMinesC3 0 0 drawsRows23).board) 0 0).map Tile.isRevealed
        = some true := by
  refine ⟨by decide, by decide, by decide, by decide⟩
